import Mathlib

/-!
A shallow embedding of the three-party billing protocol of `project-billing`
(`src/billing/three_party.rs`, `src/billing/common.rs`,
`src/billing/consumption/integer_consumption.rs`) together with proofs of the
specification's claims about it.

Modelling conventions:
* Rust strings and byte buffers are `List Nat` (each element one byte).  All
  wire data in this protocol is ASCII, so `String::from_utf8` and `.as_bytes()`
  are identities in the model.
* Machine integers are `Int`/`Nat`; `i64`/`i32` arithmetic that Rust checks for
  overflow (debug `+=`, `*`) is modelled by checked operations returning
  `Option`, with the `i64` range written out explicitly.
* Rust panics (`unwrap`, `assert!`, out-of-bounds indexing) are `none` /
  `Except.error`.
* The signature and commitment primitives live in the external `proj_crypto`
  crate, which is not part of this repository; they are modelled from the
  spec (see the doc comments on `sign`, `verify`, `commitVal`).
-/

namespace ProjBilling

/-! ### Decimal / hexadecimal byte codec

Rust's `format!("{}", n)`, `Mpz::to_str_radix`, and `from_str_radix` over the
ASCII bytes that carry them. -/

/-- The ASCII byte of one digit, `0-9a-f`, as produced by decimal formatting
and by `Mpz::to_str_radix 16` (lowercase). -/
def digitByte (d : Nat) : Nat := if d < 10 then 48 + d else 87 + d

/-- Inverse of `digitByte` as `from_str_radix` reads one byte: decimal digits,
lowercase and uppercase hex letters; rejects digits not below the radix. -/
def byteToDigit (b c : Nat) : Option Nat :=
  if 48 ≤ c ∧ c ≤ 57 then (if c - 48 < b then some (c - 48) else none)
  else if 97 ≤ c ∧ c ≤ 122 then (if c - 87 < b then some (c - 87) else none)
  else if 65 ≤ c ∧ c ≤ 90 then (if c - 55 < b then some (c - 55) else none)
  else none

/-- Digit bytes of `n` in radix `b`, least significant first; the fuel (first
argument) makes the recursion structural, `n` itself always suffices. -/
def natToBytesAux : Nat → Nat → Nat → List Nat
  | 0, _, _ => []
  | fuel + 1, b, n =>
    if n = 0 then [] else digitByte (n % b) :: natToBytesAux fuel b (n / b)

/-- The ASCII bytes of `n` in radix `b`, most significant first; `0` is `"0"`. -/
def natToBytes (b n : Nat) : List Nat :=
  if n = 0 then [48] else (natToBytesAux n b n).reverse

theorem natToBytesAux_eq_digits (b : Nat) (hb : 1 < b) :
    ∀ fuel n, n ≤ fuel → natToBytesAux fuel b n = (Nat.digits b n).map digitByte := by
  intro fuel
  induction fuel with
  | zero =>
    intro n hn
    have : n = 0 := by omega
    subst this
    simp [natToBytesAux]
  | succ fuel ih =>
    intro n hn
    unfold natToBytesAux
    by_cases h0 : n = 0
    · subst h0
      simp
    · rw [if_neg h0, Nat.digits_def' hb (by omega), List.map_cons]
      rw [ih (n / b) (by
        have := Nat.div_lt_self (by omega : 0 < n) hb
        omega)]

theorem natToBytes_eq_digits (b n : Nat) (hb : 1 < b) :
    natToBytes b n =
      if n = 0 then [48] else ((Nat.digits b n).map digitByte).reverse := by
  unfold natToBytes
  by_cases h0 : n = 0
  · simp [h0]
  · rw [if_neg h0, if_neg h0, natToBytesAux_eq_digits b hb n n le_rfl]

/-- Digit-accumulating loop of `from_str_radix`. -/
def parseNatAux (b : Nat) : Nat → List Nat → Option Nat
  | acc, [] => some acc
  | acc, c :: cs =>
    match byteToDigit b c with
    | some d => parseNatAux b (acc * b + d) cs
    | none => none

/-- `from_str_radix` for unsigned values: an empty slice is an error. -/
def parseNat (b : Nat) (cs : List Nat) : Option Nat :=
  if cs.isEmpty then none else parseNatAux b 0 cs

theorem byteToDigit_digitByte (b d : Nat) (hb : b ≤ 16) (hd : d < b) :
    byteToDigit b (digitByte d) = some d := by
  unfold byteToDigit digitByte
  by_cases h : d < 10
  · have h1 : 48 ≤ 48 + d ∧ 48 + d ≤ 57 := by omega
    simp only [if_pos h, if_pos h1]
    have : 48 + d - 48 = d := by omega
    rw [this, if_pos hd]
  · have h1 : ¬(48 ≤ 87 + d ∧ 87 + d ≤ 57) := by omega
    have h2 : 97 ≤ 87 + d ∧ 87 + d ≤ 122 := by omega
    simp only [if_neg h, if_neg h1, if_pos h2]
    have : 87 + d - 87 = d := by omega
    rw [this, if_pos hd]

theorem digitByte_range (d : Nat) (hd : d < 16) :
    48 ≤ digitByte d ∧ digitByte d ≤ 102 := by
  unfold digitByte; split <;> omega

theorem natToBytes_range (b n : Nat) (hb1 : 1 < b) (hb : b ≤ 16) :
    ∀ c ∈ natToBytes b n, 48 ≤ c ∧ c ≤ 102 := by
  intro c hc
  rw [natToBytes_eq_digits b n hb1] at hc
  split at hc
  · simp only [List.mem_singleton] at hc
    omega
  · rw [List.mem_reverse, List.mem_map] at hc
    obtain ⟨d, hd, rfl⟩ := hc
    exact digitByte_range d
      (lt_of_lt_of_le (Nat.digits_lt_base hb1 hd) hb)

theorem natToBytes_ne_nil (b n : Nat) : natToBytes b n ≠ [] := by
  unfold natToBytes
  split
  · simp
  · rename_i h
    cases n with
    | zero => exact absurd rfl h
    | succ m =>
      simp only [natToBytesAux, ne_eq, List.reverse_eq_nil_iff]
      rw [if_neg h]
      simp

theorem parseNatAux_append (b acc : Nat) (xs : List Nat) (c : Nat) :
    parseNatAux b acc (xs ++ [c]) =
      (parseNatAux b acc xs).bind
        (fun a => (byteToDigit b c).map (fun d => a * b + d)) := by
  induction xs generalizing acc with
  | nil =>
    simp only [List.nil_append, parseNatAux]
    cases byteToDigit b c <;> simp [parseNatAux]
  | cons x xs ih =>
    simp only [List.cons_append, parseNatAux]
    cases byteToDigit b x <;> simp [ih]

theorem parseNatAux_digits (b : Nat) (hb1 : 1 < b) (hb2 : b ≤ 16) :
    ∀ n acc, parseNatAux b acc (((Nat.digits b n).map digitByte).reverse)
      = some (acc * b ^ (Nat.digits b n).length + n) := by
  intro n
  induction n using Nat.strong_induction_on with
  | _ n ih =>
    intro acc
    rcases Nat.eq_zero_or_pos n with h0 | hpos
    · subst h0; simp [parseNatAux]
    · rw [Nat.digits_def' hb1 hpos]
      simp only [List.map_cons, List.reverse_cons]
      rw [parseNatAux_append,
        ih (n / b) (Nat.div_lt_self hpos hb1) acc,
        byteToDigit_digitByte b (n % b) hb2 (Nat.mod_lt n (by omega))]
      simp only [Option.some_bind, Option.map_some', Option.some.injEq,
        List.length_cons]
      have h2 : n / b * b + n % b = n := by
        rw [Nat.mul_comm (n / b) b]
        exact Nat.div_add_mod n b
      have h3 : (acc * b ^ (Nat.digits b (n / b)).length + n / b) * b + n % b
          = acc * (b ^ (Nat.digits b (n / b)).length * b) + (n / b * b + n % b) := by
        ring
      rw [pow_succ, h3, h2]

theorem parseNat_natToBytes (b n : Nat) (hb1 : 1 < b) (hb2 : b ≤ 16) :
    parseNat b (natToBytes b n) = some n := by
  rcases Nat.eq_zero_or_pos n with h0 | hpos
  · subst h0
    have h48 : byteToDigit b 48 = some 0 := by
      unfold byteToDigit
      have h1 : 48 ≤ 48 ∧ 48 ≤ 57 := by omega
      simp only [if_pos h1]
      have : (48 : Nat) - 48 = 0 := by omega
      rw [this, if_pos (by omega)]
    simp [parseNat, natToBytes, natToBytesAux, parseNatAux, h48]
  · have hne := natToBytes_ne_nil b n
    unfold parseNat
    rw [if_neg (by simpa [List.isEmpty_iff] using hne)]
    rw [natToBytes_eq_digits b n hb1, if_neg (by omega)]
    rw [parseNatAux_digits b hb1 hb2 n 0]
    simp

/-! ### Signed decimal (`i64`/`i32` `format!` and `from_str_radix`) and
`Mpz` hexadecimal. -/

/-- `format!("{}", v)` for a signed integer. -/
def intToBytes (v : Int) : List Nat :=
  if v < 0 then 45 :: natToBytes 10 v.natAbs else natToBytes 10 v.toNat

/-- `Mpz::to_str_radix(16)`. -/
def mpzToHexBytes (v : Int) : List Nat :=
  if v < 0 then 45 :: natToBytes 16 v.natAbs else natToBytes 16 v.toNat

/-- Signed `from_str_radix`: optional sign byte, then digits. -/
def parseIntRadix (b : Nat) : List Nat → Option Int
  | [] => none
  | c :: rest =>
    if c = 45 then (parseNat b rest).map (fun d : Nat => -(d : Int))
    else if c = 43 then (parseNat b rest).map (fun d : Nat => (d : Int))
    else (parseNat b (c :: rest)).map (fun d : Nat => (d : Int))

/-- `i64::from_str_radix(s, 10)`: parse, then the `i64` range. -/
def parseI64 (cs : List Nat) : Option Int :=
  (parseIntRadix 10 cs).bind
    (fun v => if -(2 ^ 63) ≤ v ∧ v < 2 ^ 63 then some v else none)

/-- `i32::from_str_radix(s, 10)`. -/
def parseI32 (cs : List Nat) : Option Int :=
  (parseIntRadix 10 cs).bind
    (fun v => if -(2 ^ 31) ≤ v ∧ v < 2 ^ 31 then some v else none)

/-- `Mpz::from_str_radix(s, 16)` (unbounded). -/
def parseMpzHex (cs : List Nat) : Option Int := parseIntRadix 16 cs

/-- Unsigned `from_str_radix` with an exclusive bound (`u8`, `usize`). -/
def parseUnsigned (b bound : Nat) : List Nat → Option Nat
  | [] => none
  | c :: rest =>
    (if c = 43 then parseNat b rest else parseNat b (c :: rest)).bind
      (fun n => if n < bound then some n else none)

def parseU8 (cs : List Nat) : Option Nat := parseUnsigned 10 256 cs

def parseUsize (cs : List Nat) : Option Nat := parseUnsigned 10 (2 ^ 64) cs

theorem parseIntRadix_natToBytes (b n : Nat) (hb1 : 1 < b) (hb2 : b ≤ 16) :
    parseIntRadix b (natToBytes b n) = some (n : Int) := by
  obtain ⟨c, cs, hcons⟩ := List.exists_cons_of_ne_nil (natToBytes_ne_nil b n)
  have hc : 48 ≤ c ∧ c ≤ 102 :=
    natToBytes_range b n hb1 hb2 c (hcons ▸ List.mem_cons_self c cs)
  have hparse := parseNat_natToBytes b n hb1 hb2
  rw [hcons] at hparse ⊢
  simp only [parseIntRadix]
  rw [if_neg (by omega : ¬c = 45), if_neg (by omega : ¬c = 43), hparse]
  rfl

theorem parseI64_intToBytes (v : Int) (h1 : -(2 ^ 63) ≤ v) (h2 : v < 2 ^ 63) :
    parseI64 (intToBytes v) = some v := by
  unfold parseI64 intToBytes
  by_cases hv : v < 0
  · rw [if_pos hv]
    simp only [parseIntRadix, reduceIte]
    rw [parseNat_natToBytes 10 v.natAbs (by omega) (by omega)]
    rw [Option.map_some', Option.some_bind]
    have habs : -((v.natAbs : Nat) : Int) = v := by omega
    rw [habs, if_pos (And.intro h1 h2)]
  · rw [if_neg hv, parseIntRadix_natToBytes 10 v.toNat (by omega) (by omega)]
    rw [Option.some_bind]
    have htn : ((v.toNat : Nat) : Int) = v := by omega
    rw [htn, if_pos (And.intro h1 h2)]

theorem parseI32_intToBytes (v : Int) (h1 : -(2 ^ 31) ≤ v) (h2 : v < 2 ^ 31) :
    parseI32 (intToBytes v) = some v := by
  unfold parseI32 intToBytes
  by_cases hv : v < 0
  · rw [if_pos hv]
    simp only [parseIntRadix, reduceIte]
    rw [parseNat_natToBytes 10 v.natAbs (by omega) (by omega)]
    rw [Option.map_some', Option.some_bind]
    have habs : -((v.natAbs : Nat) : Int) = v := by omega
    rw [habs, if_pos (And.intro h1 h2)]
  · rw [if_neg hv, parseIntRadix_natToBytes 10 v.toNat (by omega) (by omega)]
    rw [Option.some_bind]
    have htn : ((v.toNat : Nat) : Int) = v := by omega
    rw [htn, if_pos (And.intro h1 h2)]

theorem parseMpzHex_mpzToHexBytes (v : Int) :
    parseMpzHex (mpzToHexBytes v) = some v := by
  unfold parseMpzHex mpzToHexBytes
  by_cases hv : v < 0
  · rw [if_pos hv]
    simp only [parseIntRadix, reduceIte]
    rw [parseNat_natToBytes 16 v.natAbs (by omega) (by omega)]
    rw [Option.map_some']
    have habs : -((v.natAbs : Nat) : Int) = v := by omega
    rw [habs]
  · rw [if_neg hv, parseIntRadix_natToBytes 16 v.toNat (by omega) (by omega)]
    have htn : ((v.toNat : Nat) : Int) = v := by omega
    rw [htn]

theorem parseU8_natToBytes (n : Nat) (h : n < 256) :
    parseU8 (natToBytes 10 n) = some n := by
  obtain ⟨c, cs, hcons⟩ := List.exists_cons_of_ne_nil (natToBytes_ne_nil 10 n)
  have hc : 48 ≤ c ∧ c ≤ 102 :=
    natToBytes_range 10 n (by omega) (by omega) c (hcons ▸ List.mem_cons_self c cs)
  have hparse := parseNat_natToBytes 10 n (by omega) (by omega)
  rw [hcons] at hparse ⊢
  unfold parseU8
  simp only [parseUnsigned]
  rw [if_neg (by omega : ¬c = 43), hparse, Option.some_bind, if_pos h]

theorem parseUsize_natToBytes (n : Nat) (h : n < 2 ^ 64) :
    parseUsize (natToBytes 10 n) = some n := by
  obtain ⟨c, cs, hcons⟩ := List.exists_cons_of_ne_nil (natToBytes_ne_nil 10 n)
  have hc : 48 ≤ c ∧ c ≤ 102 :=
    natToBytes_range 10 n (by omega) (by omega) c (hcons ▸ List.mem_cons_self c cs)
  have hparse := parseNat_natToBytes 10 n (by omega) (by omega)
  rw [hcons] at hparse ⊢
  unfold parseUsize
  simp only [parseUnsigned]
  rw [if_neg (by omega : ¬c = 43), hparse, Option.some_bind, if_pos h]

/-! ### `split_whitespace`, `stringify_bytes`, `read_up_to_newline` -/

/-- ASCII whitespace as `str::split_whitespace` sees the bytes that occur on
this protocol's wire. -/
def isWSb (c : Nat) : Bool := c = 32 || c = 10 || c = 9 || c = 13

def splitWSAux : List Nat → List Nat → List (List Nat)
  | [], cur => if cur.isEmpty then [] else [cur.reverse]
  | c :: cs, cur =>
    if isWSb c then
      (if cur.isEmpty then splitWSAux cs [] else cur.reverse :: splitWSAux cs [])
    else splitWSAux cs (c :: cur)

/-- `str::split_whitespace` collected to a list of tokens. -/
def split_whitespace (cs : List Nat) : List (List Nat) := splitWSAux cs []

/-- `stringify_bytes`: each byte printed in decimal followed by one space. -/
def stringify_bytes : List Nat → List Nat
  | [] => []
  | b :: bs => natToBytes 10 b ++ 32 :: stringify_bytes bs

/-- `unstringify_bytes`: split on whitespace, `u8::from_str_radix` each token
(`unwrap` = `none`). -/
def unstringify_bytes (cs : List Nat) : Option (List Nat) :=
  (split_whitespace cs).mapM parseU8

/-- `read_up_to_newline`: `take_while (x != newline)` over the byte iterator;
the iterator also consumes the terminating newline.  Returns the line and the
bytes remaining in the stream. -/
def read_up_to_newline : List Nat → List Nat × List Nat
  | [] => ([], [])
  | c :: cs =>
    if c = 10 then ([], cs)
    else
      let r := read_up_to_newline cs
      (c :: r.1, r.2)

theorem splitWSAux_token (t : List Nat) (ht : ∀ c ∈ t, isWSb c = false) :
    ∀ rest cur, splitWSAux (t ++ rest) cur = splitWSAux rest (t.reverse ++ cur) := by
  induction t with
  | nil => intro rest cur; simp
  | cons c cs ih =>
    intro rest cur
    have hc : isWSb c = false := ht c (List.mem_cons_self c cs)
    simp only [List.cons_append, splitWSAux, hc, Bool.false_eq_true, if_false,
      List.append_eq]
    rw [ih (fun x hx => ht x (List.mem_cons_of_mem c hx)) rest (c :: cur)]
    simp

theorem split_whitespace_sep (t rest : List Nat) (hne : t ≠ [])
    (ht : ∀ c ∈ t, isWSb c = false) :
    split_whitespace (t ++ 32 :: rest) = t :: split_whitespace rest := by
  unfold split_whitespace
  rw [splitWSAux_token t ht (32 :: rest) []]
  have h32 : isWSb 32 = true := rfl
  simp only [List.append_nil, splitWSAux, h32, if_true]
  rw [if_neg (by simpa [List.isEmpty_iff] using (by simpa using hne : t.reverse ≠ []))]
  simp

theorem split_whitespace_last (t : List Nat) (hne : t ≠ [])
    (ht : ∀ c ∈ t, isWSb c = false) :
    split_whitespace t = [t] := by
  unfold split_whitespace
  have h := splitWSAux_token t ht [] []
  rw [List.append_nil] at h
  rw [h]
  simp only [splitWSAux]
  rw [if_neg (by simpa [List.isEmpty_iff] using (by simpa using hne : t.reverse ≠ []))]
  simp

theorem natToBytes_not_ws (b n : Nat) (hb1 : 1 < b) (hb2 : b ≤ 16) :
    ∀ c ∈ natToBytes b n, isWSb c = false := by
  intro c hc
  have := natToBytes_range b n hb1 hb2 c hc
  unfold isWSb
  simp only [Bool.or_eq_false_iff, decide_eq_false_iff_not]
  omega

theorem natToBytes_no_newline (b n : Nat) (hb1 : 1 < b) (hb2 : b ≤ 16) :
    ∀ c ∈ natToBytes b n, c ≠ 10 := by
  intro c hc
  have := natToBytes_range b n hb1 hb2 c hc
  omega

theorem unstringify_stringify (bs : List Nat) (h : ∀ b ∈ bs, b < 256) :
    unstringify_bytes (stringify_bytes bs) = some bs := by
  induction bs with
  | nil => rfl
  | cons b bs ih =>
    unfold stringify_bytes unstringify_bytes
    rw [split_whitespace_sep (natToBytes 10 b) (stringify_bytes bs)
      (natToBytes_ne_nil 10 b) (natToBytes_not_ws 10 b (by omega) (by omega))]
    have hb : b < 256 := h b (List.mem_cons_self b bs)
    have ihh := ih (fun x hx => h x (List.mem_cons_of_mem b hx))
    unfold unstringify_bytes at ihh
    simp only [List.mapM_cons, parseU8_natToBytes b hb, ihh]
    rfl

theorem stringify_bytes_range (bs : List Nat) (h : ∀ b ∈ bs, b < 256) :
    ∀ c ∈ stringify_bytes bs, (32 ≤ c ∧ c ≤ 102) := by
  induction bs with
  | nil => intro c hc; simp [stringify_bytes] at hc
  | cons b bs ih =>
    intro c hc
    unfold stringify_bytes at hc
    rw [List.mem_append] at hc
    rcases hc with hc | hc
    · have := natToBytes_range 10 b (by omega) (by omega) c hc
      omega
    · rcases List.mem_cons.mp hc with rfl | hc
      · omega
      · exact ih (fun x hx => h x (List.mem_cons_of_mem b hx)) c hc

theorem read_up_to_newline_spec (line rest : List Nat) (h : ∀ c ∈ line, c ≠ 10) :
    read_up_to_newline (line ++ 10 :: rest) = (line, rest) := by
  induction line with
  | nil => simp [read_up_to_newline]
  | cons c cs ih =>
    have hc : c ≠ 10 := h c (List.mem_cons_self c cs)
    have ihh := ih (fun x hx => h x (List.mem_cons_of_mem c hx))
    simp [read_up_to_newline, hc, ihh]

/-! ### The signature primitive

Modelled from the spec: the signature scheme (`proj_crypto::asymmetric::sign`,
an external collaborator, §6 of the spec) signs a byte string with a secret
key, producing a signed blob from which `verify` recovers the message exactly
when the blob was produced with the matching key.  Key material is abstracted
to one identifying byte; `SIGNATUREBYTES` is the signature overhead. -/

/-- Modelled from the spec: `sign::sign` produces the signed message. -/
def sign (sk : Nat) (m : List Nat) : List Nat := sk :: m

/-- Modelled from the spec: `sign::verify` recovers the signed message iff the
key matches, otherwise errors. -/
def verify (pk : Nat) : List Nat → Option (List Nat)
  | [] => none
  | k :: m => if k = pk then some m else none

/-- Modelled from the spec: signature overhead of the signed blob, in bytes. -/
def SIGNATUREBYTES : Nat := 1

theorem verify_sign (k : Nat) (m : List Nat) : verify k (sign k m) = some m := by
  simp [sign, verify]

/-! ### Commitment scheme

Modelled from the spec: the commitment primitive
(`proj_crypto::asymmetric::commitments`, an external collaborator, §6) is an
additively homomorphic commitment over the DH parameters
`params = (modulus, generator)`: committing to value `x` under blinding
factor `a` yields the group element `(g * x + a) mod p`; commitments combine
by group addition and scale by integers so that operations on commitments
mirror weighted sums of the committed values and blinding factors, with
blinding-factor arithmetic modulo `params.0` as used by
`send_billing_information`.  The serialized form of a commitment is its group
element (`commitment.x`), written in hex. -/

/-- Modelled from the spec: `CommitmentContext::from_opening((x, a), (p, g))
.to_commitment().x` — the group element committing to `x` under `a`. -/
def commitVal (p g x a : Int) : Int := (g * x + a) % p

/-- Modelled from the spec: `Commitment * Mpz` — scaling a commitment by a
public integer. -/
def commitScale (p c s : Int) : Int := (c * s) % p

/-- Modelled from the spec: `Commitment + Commitment` — homomorphic
combination. -/
def commitAdd (p c1 c2 : Int) : Int := (c1 + c2) % p

/-- Modelled from the spec: `Commitment::from_parts(v, p, false)` —
reconstructing a commitment from its serialized group element. -/
def commitFromParts (p v : Int) : Int := v % p

/-! ### `IntegerConsumption` (`consumption/integer_consumption.rs`) -/

structure IntegerConsumption where
  hour_of_week : Nat
  units_consumed : Int
deriving DecidableEq

/-- `IntegerConsumption::is_valid`. -/
def IntegerConsumption.is_valid (c : IntegerConsumption) : Bool :=
  if c.hour_of_week > 24 * 7 - 1 then false
  else if c.units_consumed < 0 then false
  else true

theorem is_valid_iff (c : IntegerConsumption) :
    c.is_valid = true ↔ c.hour_of_week ≤ 167 ∧ 0 ≤ c.units_consumed := by
  unfold IntegerConsumption.is_valid
  split
  · rename_i h
    simp only [Bool.false_eq_true, false_iff]
    omega
  · rename_i h
    split
    · rename_i h2
      simp only [Bool.false_eq_true, false_iff]
      omega
    · rename_i h2
      simp only [true_iff]
      omega

/-! ### `meter_consume` and `customer_read_consumption`
(`three_party.rs`) -/

/-- `meter_consume`: commit to the reading under blinding factor `a`
(`a = commitments::random_a(..)`, passed explicitly here), sign
`"commitment hour"`, and emit the two newline-terminated lines
`"cons a_hex"` and the stringified signed bytes.  The `assert!(is_valid)` is
the `none` case.  Returns the bytes written to the customer channel. -/
def meter_consume (params : Int × Int) (sk : Nat) (a : Int)
    (consumption : IntegerConsumption) : Option (List Nat) :=
  if consumption.is_valid then
    let a_str := mpzToHexBytes a
    let commitment_str :=
      mpzToHexBytes (commitVal params.1 params.2 consumption.units_consumed a)
    let touple_str := intToBytes consumption.units_consumed ++ 32 :: a_str
    let thing_to_sign := commitment_str ++ 32 :: natToBytes 10 consumption.hour_of_week
    some (touple_str ++ 10 :: stringify_bytes (sign sk thing_to_sign) ++ [10])
  else none

/-- `ConsumptionTableRow`: one ledger row; `signed_commitment` keeps the
stringified signed bytes exactly as received. -/
structure ConsumptionTableRow where
  signed_commitment : List Nat
  cons : Int
  other : Nat
  a : Int
deriving DecidableEq

/-- `customer_read_consumption`: read two lines, check the meter signature,
split and parse the fields (`unwrap`/`assert_eq!` failures are `none`), and
push one row onto the table.  Returns the new table and the unread bytes. -/
def customer_read_consumption (meter_key : Nat) (channel : List Nat)
    (table : List ConsumptionTableRow) :
    Option (List ConsumptionTableRow × List Nat) :=
  let r1 := read_up_to_newline channel
  let touple_str := r1.1
  let r2 := read_up_to_newline r1.2
  let sig_line := r2.1
  match unstringify_bytes sig_line with
  | none => none
  | some signed_commitment_other =>
    match verify meter_key signed_commitment_other with
    | none => none
    | some commitment_other_bytes =>
      match split_whitespace commitment_other_bytes with
      | [_, other_str] =>
        match split_whitespace touple_str with
        | [cons_str, a_str] =>
          match parseI32 cons_str, parseU8 other_str, parseMpzHex a_str with
          | some cons, some other, some a =>
            some (table ++
              [{ signed_commitment := sig_line, cons := cons,
                 other := other, a := a }], r2.2)
          | _, _, _ => none
        | _ => none
      | _ => none

theorem mpzToHexBytes_nonneg (v : Int) (h : 0 ≤ v) :
    mpzToHexBytes v = natToBytes 16 v.toNat := if_neg (not_lt.mpr h)

theorem intToBytes_nonneg (v : Int) (h : 0 ≤ v) :
    intToBytes v = natToBytes 10 v.toNat := if_neg (not_lt.mpr h)

theorem meter_consume_eq (p g : Int) (sk : Nat) (a : Int)
    (c : IntegerConsumption) (hvalid : c.is_valid = true) :
    meter_consume (p, g) sk a c =
      some (intToBytes c.units_consumed ++ 32 :: mpzToHexBytes a ++
        10 :: stringify_bytes (sign sk
          (mpzToHexBytes (commitVal p g c.units_consumed a) ++
            32 :: natToBytes 10 c.hour_of_week)) ++ [10]) := by
  simp [meter_consume, hvalid]

/-- The signed line of an honestly generated meter record for a row holding
`(cons, hour, a)` under parameters `(p, g)` and meter key `sk`. -/
def honestSignedLine (p g : Int) (sk : Nat) (cons : Int) (hour : Nat)
    (a : Int) : List Nat :=
  stringify_bytes (sign sk
    (mpzToHexBytes (commitVal p g cons a) ++ 32 :: natToBytes 10 hour))

/-- Round trip of one meter record: decoding what `meter_consume` encoded
appends exactly one row carrying the original consumption and hour. -/
theorem meter_roundtrip (p g : Int) (hp : 0 < p) (sk : Nat) (hsk : sk < 256)
    (a : Int) (ha : 0 ≤ a) (c : IntegerConsumption) (hvalid : c.is_valid = true)
    (hcons : c.units_consumed < 2 ^ 31) (rest : List Nat)
    (table : List ConsumptionTableRow) (msg : List Nat)
    (hmsg : meter_consume (p, g) sk a c = some msg) :
    customer_read_consumption sk (msg ++ rest) table =
      some (table ++
        [{ signed_commitment := honestSignedLine p g sk c.units_consumed
             c.hour_of_week a,
           cons := c.units_consumed, other := c.hour_of_week, a := a }], rest) := by
  obtain ⟨hhour, hpos⟩ := (is_valid_iff c).mp hvalid
  rw [meter_consume_eq p g sk a c hvalid] at hmsg
  obtain rfl := (Option.some.injEq _ _).mp hmsg.symm
  have hcv : 0 ≤ commitVal p g c.units_consumed a := Int.emod_nonneg _ (ne_of_gt hp)
  have hthing_range : ∀ b ∈ mpzToHexBytes (commitVal p g c.units_consumed a) ++
      32 :: natToBytes 10 c.hour_of_week, b < 256 := by
    intro b hb
    rcases List.mem_append.mp hb with hb | hb
    · rw [mpzToHexBytes_nonneg _ hcv] at hb
      have := natToBytes_range 16 _ (by omega) (by omega) b hb
      omega
    · rcases List.mem_cons.mp hb with rfl | hb
      · omega
      · have := natToBytes_range 10 c.hour_of_week (by omega) (by omega) b hb
        omega
  have hsig_range : ∀ b ∈ sign sk (mpzToHexBytes (commitVal p g c.units_consumed a) ++
      32 :: natToBytes 10 c.hour_of_week), b < 256 := by
    intro b hb
    rcases List.mem_cons.mp hb with rfl | hb
    · exact hsk
    · exact hthing_range b hb
  have htouple_no_nl :
      ∀ b ∈ intToBytes c.units_consumed ++ 32 :: mpzToHexBytes a, b ≠ 10 := by
    intro b hb
    rcases List.mem_append.mp hb with hb | hb
    · rw [intToBytes_nonneg _ hpos] at hb
      have := natToBytes_range 10 c.units_consumed.toNat (by omega) (by omega) b hb
      omega
    · rcases List.mem_cons.mp hb with rfl | hb
      · omega
      · rw [mpzToHexBytes_nonneg a ha] at hb
        have := natToBytes_range 16 a.toNat (by omega) (by omega) b hb
        omega
  have hsig_no_nl : ∀ b ∈ stringify_bytes (sign sk
      (mpzToHexBytes (commitVal p g c.units_consumed a) ++
        32 :: natToBytes 10 c.hour_of_week)), b ≠ 10 := by
    intro b hb
    have := stringify_bytes_range _ hsig_range b hb
    omega
  unfold customer_read_consumption
  have hassoc : (intToBytes c.units_consumed ++ 32 :: mpzToHexBytes a ++
      10 :: stringify_bytes (sign sk (mpzToHexBytes (commitVal p g c.units_consumed a) ++
        32 :: natToBytes 10 c.hour_of_week)) ++ [10]) ++ rest =
      (intToBytes c.units_consumed ++ 32 :: mpzToHexBytes a) ++
        10 :: (stringify_bytes (sign sk (mpzToHexBytes (commitVal p g c.units_consumed a) ++
          32 :: natToBytes 10 c.hour_of_week)) ++ 10 :: rest) := by
    simp
  rw [hassoc, read_up_to_newline_spec _ _ htouple_no_nl]
  dsimp only
  rw [read_up_to_newline_spec _ _ hsig_no_nl]
  dsimp only
  rw [unstringify_stringify _ hsig_range]
  dsimp only
  rw [verify_sign]
  dsimp only
  rw [split_whitespace_sep (mpzToHexBytes (commitVal p g c.units_consumed a)) _
    (by rw [mpzToHexBytes_nonneg _ hcv]; exact natToBytes_ne_nil 16 _)
    (by rw [mpzToHexBytes_nonneg _ hcv]
        exact natToBytes_not_ws 16 _ (by omega) (by omega))]
  rw [split_whitespace_last (natToBytes 10 c.hour_of_week)
    (natToBytes_ne_nil 10 _) (natToBytes_not_ws 10 _ (by omega) (by omega))]
  dsimp only
  rw [split_whitespace_sep (intToBytes c.units_consumed) _
    (by rw [intToBytes_nonneg _ hpos]; exact natToBytes_ne_nil 10 _)
    (by rw [intToBytes_nonneg _ hpos]
        exact natToBytes_not_ws 10 _ (by omega) (by omega))]
  rw [split_whitespace_last (mpzToHexBytes a)
    (by rw [mpzToHexBytes_nonneg a ha]; exact natToBytes_ne_nil 16 _)
    (by rw [mpzToHexBytes_nonneg a ha]
        exact natToBytes_not_ws 16 _ (by omega) (by omega))]
  dsimp only
  rw [parseI32_intToBytes c.units_consumed (by omega) hcons,
    parseU8_natToBytes c.hour_of_week (by omega),
    parseMpzHex_mpzToHexBytes a]
  rfl

/-! ### Channels and checked `i64` arithmetic -/

/-- One direction of an I/O channel: the bytes written so far, plus a
schedule of outcomes for future `write` calls (`none` = `Err`, `some n` = at
most `n` bytes written).  An empty schedule means writes succeed in full, as
on the in-memory channels of the tests. -/
structure Channel where
  sent : List Nat
  schedule : List (Option Nat)
deriving DecidableEq

/-- `Write::write`: returns `Ok(bytes_written)` or `Err`, appending the bytes
actually written. -/
def Channel.write (ch : Channel) (data : List Nat) : Option Nat × Channel :=
  match ch.schedule with
  | [] => (some data.length, { sent := ch.sent ++ data, schedule := [] })
  | none :: rs => (none, { sent := ch.sent, schedule := rs })
  | some n :: rs =>
    (some (min n data.length),
     { sent := ch.sent ++ data.take (min n data.length), schedule := rs })

/-- Checked `i64` addition: Rust debug `+`/`+=` panics outside the range. -/
def addI64 (x y : Int) : Option Int :=
  if -(2 ^ 63) ≤ x + y ∧ x + y < 2 ^ 63 then some (x + y) else none

/-- Checked `i64` multiplication. -/
def mulI64 (x y : Int) : Option Int :=
  if -(2 ^ 63) ≤ x * y ∧ x * y < 2 ^ 63 then some (x * y) else none

/-! ### `CustomerState` (`three_party.rs`) -/

structure CustomerState where
  meter_channel : List Nat
  provider_channel : Channel
  provider_in : List Nat
  consumption_table : List ConsumptionTableRow
  prices : List Int
  provider_key : Nat
  meter_key : Nat
  params : Int × Int
deriving DecidableEq

/-- The bill/blinding accumulation loop of `send_billing_information`:
`bill += cons * price` in checked `i64`, and
`a = (a + row.a * price).modulus(params.0)`; a price-table index out of
bounds or an `i64` overflow panics (`none`). -/
def billAFold (p : Int) (prices : List Int) :
    List ConsumptionTableRow → Int × Int → Option (Int × Int)
  | [], st => some st
  | row :: rows, (bill, a) =>
    match prices.get? row.other with
    | none => none
    | some price =>
      match mulI64 row.cons price with
      | none => none
      | some prod =>
        match addI64 bill prod with
        | none => none
        | some bill2 => billAFold p prices rows (bill2, (a + row.a * price) % p)

/-- The per-row write loop of `send_billing_information`: each row's
`signed_commitment` line; a failed or short write panics (`Except.error`
carrying the channel as written so far). -/
def writeRows (ch : Channel) : List ConsumptionTableRow → Except Channel Channel
  | [] => .ok ch
  | row :: rows =>
    let bytes := row.signed_commitment ++ [10]
    match ch.write bytes with
    | (none, ch2) => .error ch2
    | (some n, ch2) =>
      if n = bytes.length then writeRows ch2 rows else .error ch2

/-- `CustomerState::send_billing_information`: compute `(bill, a)` over the
ledger, write the header `"bill\na\nlen\n"`, write each row line, and clear
the ledger only after all writes succeeded.  A panic (`Except.error`) carries
the state at that point. -/
def CustomerState.send_billing_information (s : CustomerState) :
    Except CustomerState CustomerState :=
  match billAFold s.params.1 s.prices s.consumption_table (0, 0) with
  | none => .error s
  | some (bill, a) =>
    let const_len_part := intToBytes bill ++ 10 :: mpzToHexBytes a ++
      10 :: natToBytes 10 s.consumption_table.length ++ [10]
    match s.provider_channel.write const_len_part with
    | (none, ch2) => .error { s with provider_channel := ch2 }
    | (some n, ch2) =>
      if n = const_len_part.length then
        match writeRows ch2 s.consumption_table with
        | .error ch3 => .error { s with provider_channel := ch3 }
        | .ok ch3 =>
          .ok { s with provider_channel := ch3, consumption_table := [] }
      else .error { s with provider_channel := ch2 }

/-- `CustomerState::read_meter_messages`: one call to
`customer_read_consumption` on the meter channel. -/
def CustomerState.read_meter_messages (s : CustomerState) : Option CustomerState :=
  match customer_read_consumption s.meter_key s.meter_channel s.consumption_table with
  | none => none
  | some (t, rest) => some { s with consumption_table := t, meter_channel := rest }

/-! ### `ProviderState` (`three_party.rs`) -/

/-- `billing::Keys`. -/
structure Keys where
  my_sk : Nat
  their_pk : Nat
deriving DecidableEq

structure ProviderState where
  channel : List Nat
  channel_out : List Nat
  prices : List Int
  keys : Keys
  params : Int × Int
  bill_total : Int
deriving DecidableEq

/-- `ProviderState::pay_bill`: return the running total and reset it. -/
def ProviderState.pay_bill (s : ProviderState) : Int × ProviderState :=
  (s.bill_total, { s with bill_total := 0 })

/-- The row-reading loop of `receive_billing_information`: `length` lines,
each unstringified, signature-verified, split into `"commitment hour"`, the
commitment rebuilt with `from_parts` and the hour parsed as `usize`. -/
def readCommitments (pk : Nat) (p : Int) :
    Nat → List Nat → List Int → List Nat →
    Option (List Int × List Nat × List Nat)
  | 0, channel, commitments, others => some (commitments, others, channel)
  | n + 1, channel, commitments, others =>
    let r := read_up_to_newline channel
    match unstringify_bytes r.1 with
    | none => none
    | some signed_commitment =>
      match verify pk signed_commitment with
      | none => none
      | some commitment_bytes =>
        match split_whitespace commitment_bytes with
        | [commit_str, other_str] =>
          match parseMpzHex commit_str, parseUsize other_str with
          | some commitment, some other =>
            readCommitments pk p n r.2
              (commitments ++ [commitFromParts p commitment])
              (others ++ [other])
          | _, _ => none
        | _ => none

/-- The `for i in 1..length` recombination loop of
`receive_billing_information`, over the remaining `(commitment, hour)` pairs
(the source walks the two vectors by a shared index, which is the zip of the
lists): `calculated = calculated + commitments[i] * prices[others[i]]`. -/
def calcFold (p : Int) (prices : List Int) :
    List (Int × Nat) → Int → Option Int
  | [], acc => some acc
  | (cmt, o) :: rest, acc =>
    match prices.get? o with
    | none => none
    | some price => calcFold p prices rest (commitAdd p acc (commitScale p cmt price))

/-- `ProviderState::receive_billing_information`: parse the header, special
case `length == 0` (`assert_eq!(bill, 0)`), read the signed commitments,
recompute `expected = Commit(bill, a)` and `calculated` from the provider's
own prices, `assert!(expected == calculated)`, then `bill_total += bill`. -/
def ProviderState.receive_billing_information (s : ProviderState) :
    Option ProviderState :=
  let r1 := read_up_to_newline s.channel
  let r2 := read_up_to_newline r1.2
  let r3 := read_up_to_newline r2.2
  match parseI64 r1.1, parseMpzHex r2.1, parseUsize r3.1 with
  | some bill, some a, some length =>
    if length = 0 then
      if bill = 0 then some { s with channel := r3.2 } else none
    else
      match readCommitments s.keys.their_pk s.params.1 length r3.2 [] [] with
      | none => none
      | some (commitments, others, restCh) =>
        let expected := commitVal s.params.1 s.params.2 bill a
        match commitments, others with
        | c0 :: ctl, o0 :: otl =>
          match s.prices.get? o0 with
          | none => none
          | some price0 =>
            match calcFold s.params.1 s.prices (ctl.zip otl)
                (commitScale s.params.1 c0 price0) with
            | none => none
            | some calculated =>
              if expected = calculated then
                match addI64 s.bill_total bill with
                | none => none
                | some bt => some { s with channel := restCh, bill_total := bt }
              else none
        | _, _ => none
  | _, _, _ => none

/-! ### Price distribution (`common.rs`)

`check_for_new_prices` / `change_prices`, shared by the billing protocols,
instantiated at `Cons = i32`, `C = IntegerConsumption` as `three_party.rs`
uses them.  `SystemTime` is modelled as seconds since the epoch; its
`transmute` to `size_of::<SystemTime>()` bytes is modelled as the
round-trip-exact little-endian serialization the same process reads back.
The `i32` price values are serialized by `transmute` to their 4 native
(little-endian, two's complement) bytes. -/

/-- Little-endian base-256 serialization into exactly `k` bytes. -/
def leBytes : Nat → Nat → List Nat
  | 0, _ => []
  | k + 1, n => n % 256 :: leBytes k (n / 256)

/-- Little-endian base-256 value of a byte list. -/
def leFromBytes : List Nat → Nat
  | [] => 0
  | b :: bs => b + 256 * leFromBytes bs

/-- `size_of::<SystemTime>()`. -/
def SIZE_SYSTEMTIME : Nat := 16

/-- The `transmute::<SystemTime, [u8; 16]>` of the timestamp. -/
def timeToBytes (t : Nat) : List Nat := leBytes SIZE_SYSTEMTIME t

/-- The inverse `transmute` on the receiving side. -/
def timeFromBytes (bs : List Nat) : Nat := leFromBytes bs

/-- `IntegerConsumption::cons_from_bytes`: 4 native bytes to `i32`. -/
def cons_from_bytes (bs : List Nat) : Int :=
  let u := leFromBytes bs
  if u < 2 ^ 31 then (u : Int) else (u : Int) - 2 ^ 32

/-- One `i32` to its 4 native bytes (two's complement). -/
def i32ToBytes (v : Int) : List Nat := leBytes 4 (v % 2 ^ 32).toNat

/-- `IntegerConsumption::prices_to_bytes`: the 168 prices' bytes in order. -/
def prices_to_bytes : List Int → List Nat
  | [] => []
  | v :: vs => i32ToBytes v ++ prices_to_bytes vs

/-- `prices_len()` for hourly time-of-use billing. -/
def PRICES_LEN : Nat := 24 * 7

/-- `BUF_LEN`: one signed price-update blob. -/
def BUF_LEN : Nat := 4 * PRICES_LEN + SIGNATUREBYTES + SIZE_SYSTEMTIME

/-- The decode loop of `check_for_new_prices`: starting from
`null_prices()`, `set_price(i, cons_from_bytes(&data_buf[4*i..4*i+4]))` for
each hour `i`. -/
def buildPrices (data : List Nat) : List Int :=
  (List.range PRICES_LEN).foldl
    (fun acc i => acc.set i (cons_from_bytes ((data.drop (4 * i)).take 4)))
    (List.replicate PRICES_LEN 0)

/-- The two-month freshness window, in seconds. -/
def PRICE_WINDOW_SECS : Nat := 2 * 31 * 24 * 60 * 60

/-- `check_for_new_prices` with the receiver's clock `now` explicit: drain
fixed-size blocks until the channel would block, verifying each, rejecting
stale (or future, for which `duration_since` errors and the `unwrap`
panics) timestamps fatally; the last valid table wins. -/
def check_for_new_prices (now pk : Nat) (channel : List Nat)
    (ret : Option (List Int)) : Except Unit (Option (List Int)) :=
  if hempty : channel.isEmpty then .ok ret
  else if channel.length < BUF_LEN then .error ()
  else
    match verify pk (channel.take BUF_LEN) with
    | none => .error ()
    | some payload =>
      let t := timeFromBytes (payload.take SIZE_SYSTEMTIME)
      if now < t then .error ()
      else if PRICE_WINDOW_SECS < now - t then .error ()
      else
        check_for_new_prices now pk (channel.drop BUF_LEN)
          (some (buildPrices (payload.drop SIZE_SYSTEMTIME)))
termination_by channel.length
decreasing_by
  simp only [List.length_drop]
  have hne : channel ≠ [] := by simpa [List.isEmpty_iff] using hempty
  have hpos : 0 < channel.length := List.length_pos.mpr hne
  have hbuf : 0 < BUF_LEN := by decide
  omega

/-- `common::change_prices` at the sender: the signed
`timestamp ++ prices` blob written to the channel (`now` is the sender's
clock). -/
def change_prices (now sk : Nat) (prices : List Int) : List Nat :=
  sign sk (timeToBytes now ++ prices_to_bytes prices)

/-- `ProviderState::change_prices`: send the signed blob, then store the new
prices unconditionally. -/
def ProviderState.change_prices (now : Nat) (s : ProviderState)
    (prices : List Int) : ProviderState :=
  { s with channel_out := s.channel_out ++ ProjBilling.change_prices now s.keys.my_sk prices,
           prices := prices }

/-- `CustomerState::read_provider_messages`: on a new table, replace the held
prices. -/
def CustomerState.read_provider_messages (now : Nat) (s : CustomerState) :
    Except Unit CustomerState :=
  match check_for_new_prices now s.provider_key s.provider_in none with
  | .error e => .error e
  | .ok none => .ok { s with provider_in := [] }
  | .ok (some new_prices) => .ok { s with provider_in := [], prices := new_prices }

theorem leBytes_length (k n : Nat) : (leBytes k n).length = k := by
  induction k generalizing n with
  | zero => rfl
  | succ k ih => simp [leBytes, ih]

theorem leFromBytes_leBytes (k n : Nat) (h : n < 256 ^ k) :
    leFromBytes (leBytes k n) = n := by
  induction k generalizing n with
  | zero =>
    simp only [leBytes, leFromBytes]
    have : n = 0 := by simpa using Nat.lt_one_iff.mp (by simpa using h)
    omega
  | succ k ih =>
    simp only [leBytes, leFromBytes]
    rw [ih (n / 256) (by
      rw [Nat.div_lt_iff_lt_mul (by omega)]
      calc n < 256 ^ (k + 1) := h
        _ = 256 ^ k * 256 := by rw [pow_succ])]
    omega

theorem cons_from_bytes_i32ToBytes (v : Int) (h1 : -(2 ^ 31) ≤ v)
    (h2 : v < 2 ^ 31) : cons_from_bytes (i32ToBytes v) = v := by
  unfold cons_from_bytes i32ToBytes
  have hmod : 0 ≤ v % 2 ^ 32 ∧ v % 2 ^ 32 < 2 ^ 32 := by omega
  have hlt : (v % 2 ^ 32).toNat < 256 ^ 4 := by omega
  rw [leFromBytes_leBytes 4 _ hlt]
  have hcast : (((v % 2 ^ 32).toNat : Nat) : Int) = v % 2 ^ 32 := by omega
  dsimp only
  split <;> omega

theorem i32ToBytes_length (v : Int) : (i32ToBytes v).length = 4 :=
  leBytes_length 4 _

theorem prices_to_bytes_length (ps : List Int) :
    (prices_to_bytes ps).length = 4 * ps.length := by
  induction ps with
  | nil => rfl
  | cons v vs ih =>
    simp [prices_to_bytes, i32ToBytes_length, ih]
    ring

theorem prices_chunk (ps : List Int) :
    ∀ i, i < ps.length →
      ((prices_to_bytes ps).drop (4 * i)).take 4 = i32ToBytes (ps.getD i 0) := by
  induction ps with
  | nil => intro i hi; simp at hi
  | cons v vs ih =>
    intro i hi
    cases i with
    | zero =>
      simp only [Nat.mul_zero, List.drop_zero, prices_to_bytes, List.getD]
      have h4 : (i32ToBytes v).length = 4 := i32ToBytes_length v
      rw [← h4, List.take_left]
      rfl
    | succ i =>
      have h4 : (i32ToBytes v).length = 4 := i32ToBytes_length v
      have hdrop : (prices_to_bytes (v :: vs)).drop (4 * (i + 1)) =
          (prices_to_bytes vs).drop (4 * i) := by
        show (i32ToBytes v ++ prices_to_bytes vs).drop (4 * (i + 1)) = _
        have he : 4 * (i + 1) = (i32ToBytes v).length + 4 * i := by
          rw [i32ToBytes_length]
          ring
        rw [he, List.drop_append]
      rw [hdrop, ih i (by simpa using hi)]
      rfl

theorem set_append_length {α : Type} (l1 l2 : List α) (v : α) :
    (l1 ++ l2).set l1.length v = l1 ++ l2.set 0 v := by
  induction l1 with
  | nil => rfl
  | cons x xs ih => simp [List.set, ih]

theorem set_append_length_eq {α : Type} (l1 l2 : List α) (v : α) (i : Nat)
    (h : i = l1.length) : (l1 ++ l2).set i v = l1 ++ l2.set 0 v := by
  subst h
  exact set_append_length l1 l2 v

theorem foldl_set_range (f : Nat → Int) (n : Nat) :
    ∀ extra : List Int,
      (List.range n).foldl (fun acc i => acc.set i (f i))
        (List.replicate n 0 ++ extra) = (List.range n).map f ++ extra := by
  induction n with
  | zero => intro extra; rfl
  | succ n ih =>
    intro extra
    rw [List.range_succ, List.foldl_append, List.replicate_succ',
      List.append_assoc, List.singleton_append, ih (0 :: extra)]
    simp only [List.foldl_cons, List.foldl_nil]
    rw [set_append_length_eq (List.map f (List.range n)) (0 :: extra) (f n) n
      (by simp)]
    simp [List.range_succ]

theorem getD_range_map (l : List Int) :
    (List.range l.length).map (fun i => l.getD i 0) = l := by
  induction l with
  | nil => rfl
  | cons x xs ih =>
    simp only [List.length_cons, List.range_succ_eq_map, List.map_cons,
      List.map_map]
    have hco : ((fun i => (x :: xs).getD i 0) ∘ Nat.succ) =
        (fun i => xs.getD i 0) := rfl
    rw [hco, ih]
    rfl

theorem getD_mem_of_lt (l : List Int) (i : Nat) (h : i < l.length) :
    l.getD i 0 ∈ l := by
  induction l generalizing i with
  | nil => simp at h
  | cons x xs ih =>
    cases i with
    | zero => exact List.mem_cons_self x xs
    | succ i => exact List.mem_cons_of_mem x (ih i (by simpa using h))

theorem buildPrices_prices_to_bytes (ps : List Int)
    (hlen : ps.length = PRICES_LEN)
    (hrange : ∀ v ∈ ps, -(2 ^ 31) ≤ v ∧ v < 2 ^ 31) :
    buildPrices (prices_to_bytes ps) = ps := by
  unfold buildPrices
  have h1 : (List.replicate PRICES_LEN (0 : Int)) =
      List.replicate PRICES_LEN 0 ++ [] := by simp
  rw [h1, foldl_set_range
    (fun i => cons_from_bytes (((prices_to_bytes ps).drop (4 * i)).take 4))
    PRICES_LEN []]
  rw [List.append_nil]
  have h2 : ∀ i ∈ List.range PRICES_LEN,
      cons_from_bytes (((prices_to_bytes ps).drop (4 * i)).take 4) =
        ps.getD i 0 := by
    intro i hi
    rw [List.mem_range] at hi
    rw [prices_chunk ps i (by omega)]
    have hmem : ps.getD i 0 ∈ ps := getD_mem_of_lt ps i (by omega)
    obtain ⟨hr1, hr2⟩ := hrange _ hmem
    exact cons_from_bytes_i32ToBytes _ hr1 hr2
  rw [List.map_congr_left h2]
  rw [← hlen, getD_range_map]

theorem change_prices_eq (t sk : Nat) (prices : List Int) :
    change_prices t sk prices =
      sk :: (timeToBytes t ++ prices_to_bytes prices) := rfl

theorem change_prices_length (t sk : Nat) (prices : List Int)
    (hlen : prices.length = PRICES_LEN) :
    (change_prices t sk prices).length = BUF_LEN := by
  rw [change_prices_eq]
  simp only [List.length_cons, List.length_append, prices_to_bytes_length,
    hlen]
  unfold timeToBytes BUF_LEN SIGNATUREBYTES
  rw [leBytes_length]
  omega

/-- One freshly pushed price-update blob: `check_for_new_prices` rejects it
fatally when the timestamp is in the future (`duration_since` `unwrap`) or
older than the freshness window, and otherwise returns the table exactly as
sent — with no validation of the price values themselves. -/
theorem check_for_new_prices_single (now t sk : Nat) (prices : List Int)
    (hlen : prices.length = PRICES_LEN)
    (hrange : ∀ v ∈ prices, -(2 ^ 31) ≤ v ∧ v < 2 ^ 31)
    (ht : t < 256 ^ SIZE_SYSTEMTIME) (ret : Option (List Int)) :
    check_for_new_prices now sk (change_prices t sk prices) ret =
      if now < t then .error ()
      else if PRICE_WINDOW_SECS < now - t then .error ()
      else .ok (some prices) := by
  have htlen : (timeToBytes t).length = SIZE_SYSTEMTIME := leBytes_length _ _
  have hblen : (change_prices t sk prices).length = BUF_LEN :=
    change_prices_length t sk prices hlen
  rw [check_for_new_prices]
  rw [dif_neg (by rw [change_prices_eq]; simp)]
  rw [if_neg (by omega)]
  have htake : (change_prices t sk prices).take BUF_LEN =
      change_prices t sk prices := by
    rw [← hblen, List.take_length]
  rw [htake, change_prices_eq]
  have hver : verify sk (sk :: (timeToBytes t ++ prices_to_bytes prices)) =
      some (timeToBytes t ++ prices_to_bytes prices) := verify_sign sk _
  rw [hver]
  have htake2 : (timeToBytes t ++ prices_to_bytes prices).take SIZE_SYSTEMTIME =
      timeToBytes t := by
    rw [← htlen, List.take_left]
  have hdrop2 : (timeToBytes t ++ prices_to_bytes prices).drop SIZE_SYSTEMTIME =
      prices_to_bytes prices := by
    rw [← htlen, List.drop_left]
  dsimp only
  rw [htake2]
  have htt : timeFromBytes (timeToBytes t) = t := leFromBytes_leBytes _ _ ht
  rw [htt]
  by_cases hfut : now < t
  · rw [if_pos hfut, if_pos hfut]
  · rw [if_neg hfut, if_neg hfut]
    by_cases hold : PRICE_WINDOW_SECS < now - t
    · rw [if_pos hold, if_pos hold]
    · rw [if_neg hold, if_neg hold]
      rw [hdrop2, buildPrices_prices_to_bytes prices hlen hrange]
      have hdropall : (sk :: (timeToBytes t ++ prices_to_bytes prices)).drop
          BUF_LEN = [] := by
        rw [← change_prices_eq, ← hblen, List.drop_length]
      rw [hdropall, check_for_new_prices]
      rfl

/-! ### Honest-bill correctness: arithmetic of the two folds -/

/-- The exact integer bill of a ledger under a price table:
`sum cons_i * price[hour_i]`. -/
def billOf (prices : List Int) (rows : List ConsumptionTableRow) : Int :=
  (rows.map (fun r => r.cons * prices.getD r.other 0)).sum

/-- The exact weighted blinding-factor sum `sum a_i * price[hour_i]`. -/
def aSumOf (prices : List Int) (rows : List ConsumptionTableRow) : Int :=
  (rows.map (fun r => r.a * prices.getD r.other 0)).sum

/-- A ledger row as an honest meter and customer produce it: in-range fields
and the signed commitment binding `(commitment, hour)` under the meter key. -/
def HonestRow (p g : Int) (sk : Nat) (r : ConsumptionTableRow) : Prop :=
  0 ≤ r.cons ∧ r.cons < 2 ^ 31 ∧ r.other < 168 ∧ 0 ≤ r.a ∧
    r.signed_commitment = honestSignedLine p g sk r.cons r.other r.a

instance (p g : Int) (sk : Nat) (r : ConsumptionTableRow) :
    Decidable (HonestRow p g sk r) := by
  unfold HonestRow
  infer_instance

theorem billAFold_spec (p : Int) (prices : List Int) :
    ∀ rows st bill a, billAFold p prices rows st = some (bill, a) →
      bill = st.1 + billOf prices rows ∧
        a % p = (st.2 + aSumOf prices rows) % p := by
  intro rows
  induction rows with
  | nil =>
    intro st bill a h
    cases st with
    | mk b0 a0 =>
      simp only [billAFold, Option.some.injEq, Prod.mk.injEq] at h
      obtain ⟨rfl, rfl⟩ := h
      simp [billOf, aSumOf]
  | cons row rows ih =>
    intro st bill a h
    cases st with
    | mk b0 a0 =>
      unfold billAFold at h
      cases hget : prices.get? row.other with
      | none => rw [hget] at h; simp at h
      | some price =>
        rw [hget] at h
        dsimp only at h
        cases hmul : mulI64 row.cons price with
        | none => rw [hmul] at h; simp at h
        | some prod =>
          rw [hmul] at h
          dsimp only at h
          cases hadd : addI64 b0 prod with
          | none => rw [hadd] at h; simp at h
          | some b1 =>
            rw [hadd] at h
            dsimp only at h
            have hprod : prod = row.cons * price := by
              unfold mulI64 at hmul
              split at hmul
              · injection hmul with hx
                exact hx.symm
              · exact absurd hmul (by simp)
            have hsum : b1 = b0 + prod := by
              unfold addI64 at hadd
              split at hadd
              · injection hadd with hx
                exact hx.symm
              · exact absurd hadd (by simp)
            have hgd : prices.getD row.other 0 = price := by
              show (prices.get? row.other).getD 0 = price
              rw [hget]
              rfl
            obtain ⟨h1, h2⟩ := ih (b1, (a0 + row.a * price) % p) bill a h
            constructor
            · simp only [billOf, List.map_cons, List.sum_cons] at h1 ⊢
              rw [hgd]
              omega
            · simp only [aSumOf, List.map_cons, List.sum_cons] at h2 ⊢
              rw [hgd]
              rw [h2, Int.emod_add_emod]
              congr 1
              ring

/-! ### `send_billing_information` on an all-successful channel -/

/-- The row lines of the bill proof as written on the wire. -/
def rowsBytes : List ConsumptionTableRow → List Nat
  | [] => []
  | r :: rs => (r.signed_commitment ++ [10]) ++ rowsBytes rs

theorem Channel.write_nosched (ch : Channel) (data : List Nat)
    (h : ch.schedule = []) :
    ch.write data = (some data.length,
      { sent := ch.sent ++ data, schedule := [] }) := by
  unfold Channel.write
  rw [h]

theorem writeRows_nosched :
    ∀ rows (ch : Channel), ch.schedule = [] →
      writeRows ch rows = .ok (Channel.mk (ch.sent ++ rowsBytes rows) []) := by
  intro rows
  induction rows with
  | nil =>
    intro ch h
    cases ch with
    | mk sent sched =>
      simp only at h
      subst h
      simp [writeRows, rowsBytes]
  | cons r rs ih =>
    intro ch h
    unfold writeRows
    dsimp only
    rw [Channel.write_nosched ch _ h]
    dsimp only
    rw [if_pos rfl, ih _ rfl]
    dsimp only
    rw [List.append_assoc]
    rfl

/-- The header plus row lines of the bill proof. -/
def billProofBytes (bill aT : Int) (rows : List ConsumptionTableRow) :
    List Nat :=
  (intToBytes bill ++ 10 :: mpzToHexBytes aT ++
    10 :: natToBytes 10 rows.length ++ [10]) ++ rowsBytes rows

theorem send_billing_information_nosched (s : CustomerState)
    (hsched : s.provider_channel.schedule = []) (bill aT : Int)
    (hfold : billAFold s.params.1 s.prices s.consumption_table (0, 0) =
      some (bill, aT)) :
    s.send_billing_information = .ok { s with
      provider_channel := Channel.mk
        (s.provider_channel.sent ++ billProofBytes bill aT s.consumption_table) [],
      consumption_table := [] } := by
  unfold CustomerState.send_billing_information
  rw [hfold]
  dsimp only
  rw [Channel.write_nosched _ _ hsched]
  dsimp only
  rw [if_pos rfl, writeRows_nosched s.consumption_table _ rfl]
  dsimp only
  simp [billProofBytes, List.append_assoc]

/-! ### Provider-side decoding of honest rows -/

theorem honestSignedLine_bytes (p g : Int) (hp : 0 < p) (sk : Nat)
    (hsk : sk < 256) (cons : Int) (hour : Nat) (a : Int) :
    (∀ b ∈ honestSignedLine p g sk cons hour a, b ≠ 10) ∧
      unstringify_bytes (honestSignedLine p g sk cons hour a) =
        some (sign sk (mpzToHexBytes (commitVal p g cons a) ++
          32 :: natToBytes 10 hour)) := by
  have hcv : 0 ≤ commitVal p g cons a := Int.emod_nonneg _ (ne_of_gt hp)
  have hthing_range : ∀ b ∈ mpzToHexBytes (commitVal p g cons a) ++
      32 :: natToBytes 10 hour, b < 256 := by
    intro b hb
    rcases List.mem_append.mp hb with hb | hb
    · rw [mpzToHexBytes_nonneg _ hcv] at hb
      have := natToBytes_range 16 _ (by omega) (by omega) b hb
      omega
    · rcases List.mem_cons.mp hb with rfl | hb
      · omega
      · have := natToBytes_range 10 hour (by omega) (by omega) b hb
        omega
  have hsig_range : ∀ b ∈ sign sk (mpzToHexBytes (commitVal p g cons a) ++
      32 :: natToBytes 10 hour), b < 256 := by
    intro b hb
    rcases List.mem_cons.mp hb with rfl | hb
    · exact hsk
    · exact hthing_range b hb
  constructor
  · intro b hb
    have := stringify_bytes_range _ hsig_range b hb
    omega
  · exact unstringify_stringify _ hsig_range

theorem split_whitespace_commit_hour (p g : Int) (hp : 0 < p) (cons : Int)
    (hour : Nat) (a : Int) :
    split_whitespace (mpzToHexBytes (commitVal p g cons a) ++
        32 :: natToBytes 10 hour) =
      [mpzToHexBytes (commitVal p g cons a), natToBytes 10 hour] := by
  have hcv : 0 ≤ commitVal p g cons a := Int.emod_nonneg _ (ne_of_gt hp)
  rw [split_whitespace_sep (mpzToHexBytes (commitVal p g cons a)) _
    (by rw [mpzToHexBytes_nonneg _ hcv]; exact natToBytes_ne_nil 16 _)
    (by rw [mpzToHexBytes_nonneg _ hcv]
        exact natToBytes_not_ws 16 _ (by omega) (by omega))]
  rw [split_whitespace_last (natToBytes 10 hour)
    (natToBytes_ne_nil 10 _) (natToBytes_not_ws 10 _ (by omega) (by omega))]

theorem readCommitments_honest (p g : Int) (hp : 0 < p) (sk : Nat)
    (hsk : sk < 256) :
    ∀ rows : List ConsumptionTableRow, (∀ r ∈ rows, HonestRow p g sk r) →
      ∀ rest cs os,
        readCommitments sk p rows.length (rowsBytes rows ++ rest) cs os =
          some (cs ++ rows.map (fun r => commitVal p g r.cons r.a),
            os ++ rows.map (fun r => r.other), rest) := by
  intro rows
  induction rows with
  | nil =>
    intro _ rest cs os
    simp [readCommitments, rowsBytes]
  | cons r rs ih =>
    intro hrows rest cs os
    obtain ⟨hc0, hc1, ho, ha, hsig⟩ := hrows r (List.mem_cons_self r rs)
    obtain ⟨hnl, hunstr⟩ :=
      honestSignedLine_bytes p g hp sk hsk r.cons r.other r.a
    have hassoc : rowsBytes (r :: rs) ++ rest =
        r.signed_commitment ++ 10 :: (rowsBytes rs ++ rest) := by
      simp [rowsBytes]
    rw [List.length_cons]
    unfold readCommitments
    rw [hassoc, hsig]
    rw [read_up_to_newline_spec _ _ hnl]
    dsimp only
    rw [hunstr]
    dsimp only
    rw [verify_sign]
    dsimp only
    rw [split_whitespace_commit_hour p g hp r.cons r.other r.a]
    dsimp only
    rw [parseMpzHex_mpzToHexBytes, parseUsize_natToBytes r.other (by omega)]
    dsimp only
    rw [ih (fun x hx => hrows x (List.mem_cons_of_mem r hx)) rest
      (cs ++ [commitFromParts p (commitVal p g r.cons r.a)]) (os ++ [r.other])]
    have hfp : commitFromParts p (commitVal p g r.cons r.a) =
        commitVal p g r.cons r.a := Int.emod_emod _ _
    rw [hfp]
    simp

theorem emod_mul_left_emod (a b n : Int) : (a % n * b) % n = (a * b) % n := by
  rw [Int.mul_emod (a % n) b n, Int.emod_emod, ← Int.mul_emod]

theorem calcFold_spec (p : Int) (prices : List Int) :
    ∀ pairs : List (Int × Nat), ∀ acc, acc % p = acc →
      (∀ pr ∈ pairs, pr.2 < prices.length) →
      calcFold p prices pairs acc =
        some ((acc + (pairs.map (fun pr => pr.1 * prices.getD pr.2 0)).sum) % p) := by
  intro pairs
  induction pairs with
  | nil =>
    intro acc hacc _
    simp [calcFold, hacc]
  | cons pr rest ih =>
    intro acc hacc hbound
    cases pr with
    | mk cmt o =>
      have hlt : o < prices.length := hbound (cmt, o) (List.mem_cons_self _ _)
      have hgetd : prices.getD o 0 = prices[o] := by
        show (prices.get? o).getD 0 = prices[o]
        rw [List.get?_eq_getElem?, List.getElem?_eq_getElem hlt]
        rfl
      have hget : prices.get? o = some (prices.getD o 0) := by
        rw [hgetd, List.get?_eq_getElem?, List.getElem?_eq_getElem hlt]
      unfold calcFold
      rw [hget]
      dsimp only
      rw [ih (commitAdd p acc (commitScale p cmt (prices.getD o 0)))
        (Int.emod_emod _ _)
        (fun x hx => hbound x (List.mem_cons_of_mem _ hx))]
      unfold commitAdd commitScale
      rw [Int.emod_add_emod]
      have hcomm : acc + cmt * prices.getD o 0 % p +
          (List.map (fun pr => pr.1 * prices.getD pr.2 0) rest).sum =
          cmt * prices.getD o 0 % p +
            (acc + (List.map (fun pr => pr.1 * prices.getD pr.2 0) rest).sum) := by
        ring
      rw [hcomm, Int.emod_add_emod]
      simp only [List.map_cons, List.sum_cons]
      have hfin : cmt * prices.getD o 0 +
          (acc + (List.map (fun pr => pr.1 * prices.getD pr.2 0) rest).sum) =
          acc + (cmt * prices.getD o 0 +
            (List.map (fun pr => pr.1 * prices.getD pr.2 0) rest).sum) := by
        ring
      rw [hfin]

theorem commitSum_mod (p g : Int) (prices : List Int) :
    ∀ rows : List ConsumptionTableRow,
      ((rows.map (fun r => commitVal p g r.cons r.a * prices.getD r.other 0)).sum) % p
        = (g * billOf prices rows + aSumOf prices rows) % p := by
  intro rows
  induction rows with
  | nil => simp [billOf, aSumOf]
  | cons r rs ih =>
    simp only [List.map_cons, List.sum_cons]
    have hhead : (commitVal p g r.cons r.a * prices.getD r.other 0) % p =
        ((g * r.cons + r.a) * prices.getD r.other 0) % p :=
      emod_mul_left_emod _ _ _
    rw [← Int.emod_add_emod, hhead, Int.emod_add_emod, ← Int.add_emod_emod, ih,
      Int.add_emod_emod]
    simp only [billOf, aSumOf, List.map_cons, List.sum_cons]
    congr 1
    ring

theorem intToBytes_no_newline (v : Int) : ∀ b ∈ intToBytes v, b ≠ 10 := by
  intro b hb
  unfold intToBytes at hb
  split at hb
  · rcases List.mem_cons.mp hb with rfl | hb
    · omega
    · have := natToBytes_range 10 _ (by omega) (by omega) b hb
      omega
  · have := natToBytes_range 10 _ (by omega) (by omega) b hb
    omega

theorem mpzToHexBytes_no_newline (v : Int) : ∀ b ∈ mpzToHexBytes v, b ≠ 10 := by
  intro b hb
  unfold mpzToHexBytes at hb
  split at hb
  · rcases List.mem_cons.mp hb with rfl | hb
    · omega
    · have := natToBytes_range 16 _ (by omega) (by omega) b hb
      omega
  · have := natToBytes_range 16 _ (by omega) (by omega) b hb
    omega

theorem get?_getD (l : List Int) (i : Nat) (h : i < l.length) :
    l.get? i = some (l.getD i 0) := by
  have hgetd : l.getD i 0 = l[i] := by
    show (l.get? i).getD 0 = l[i]
    rw [List.get?_eq_getElem?, List.getElem?_eq_getElem h]
    rfl
  rw [hgetd, List.get?_eq_getElem?, List.getElem?_eq_getElem h]

theorem billAFold_bill_range (p : Int) (prices : List Int) :
    ∀ rows st bill aT, billAFold p prices rows st = some (bill, aT) →
      bill = st.1 ∨ (-(2 ^ 63) ≤ bill ∧ bill < 2 ^ 63) := by
  intro rows
  induction rows with
  | nil =>
    intro st bill aT h
    cases st with
    | mk b0 a0 =>
      simp only [billAFold, Option.some.injEq, Prod.mk.injEq] at h
      exact Or.inl h.1.symm
  | cons row rows ih =>
    intro st bill aT h
    cases st with
    | mk b0 a0 =>
      unfold billAFold at h
      cases hget : prices.get? row.other with
      | none => rw [hget] at h; simp at h
      | some price =>
        rw [hget] at h
        dsimp only at h
        cases hmul : mulI64 row.cons price with
        | none => rw [hmul] at h; simp at h
        | some prod =>
          rw [hmul] at h
          dsimp only at h
          cases hadd : addI64 b0 prod with
          | none => rw [hadd] at h; simp at h
          | some b1 =>
            rw [hadd] at h
            dsimp only at h
            have hb1 : -(2 ^ 63) ≤ b1 ∧ b1 < 2 ^ 63 := by
              unfold addI64 at hadd
              split at hadd
              · rename_i hcond
                injection hadd with hx
                omega
              · exact absurd hadd (by simp)
            rcases ih (b1, (a0 + row.a * price) % p) bill aT h with heq | hr
            · exact Or.inr (heq ▸ hb1)
            · exact Or.inr hr

/-- The provider accepts an honestly constructed bill proof: the recomputed
commitment `Commit(bill, a)` equals the homomorphic recombination of the
per-row commitments under the provider's identical prices, and `bill` is
added to the running total. -/
theorem receive_billing_information_honest (p g : Int) (hp : 0 < p)
    (skM : Nat) (hsk : skM < 256) (skP : Nat)
    (prices : List Int) (hplen : prices.length = PRICES_LEN)
    (rows : List ConsumptionTableRow)
    (hrows : ∀ r ∈ rows, HonestRow p g skM r)
    (hn : rows.length < 2 ^ 64)
    (bill aT : Int)
    (hfold : billAFold p prices rows (0, 0) = some (bill, aT))
    (chout : List Nat) (bt : Int) (rest : List Nat)
    (hbt : -(2 ^ 63) ≤ bt + bill ∧ bt + bill < 2 ^ 63) :
    ProviderState.receive_billing_information
        ⟨billProofBytes bill aT rows ++ rest, chout, prices,
          ⟨skP, skM⟩, (p, g), bt⟩ =
      some ⟨rest, chout, prices, ⟨skP, skM⟩, (p, g), bt + bill⟩ := by
  obtain ⟨hbillOf, haT⟩ := billAFold_spec p prices rows (0, 0) bill aT hfold
  have hbill : bill = billOf prices rows := by simpa using hbillOf
  have haT2 : aT % p = aSumOf prices rows % p := by simpa using haT
  have hbr : -(2 ^ 63) ≤ bill ∧ bill < 2 ^ 63 := by
    rcases billAFold_bill_range p prices rows (0, 0) bill aT hfold with h0 | h
    · simp only at h0
      omega
    · exact h
  have hlines : billProofBytes bill aT rows ++ rest =
      intToBytes bill ++ 10 :: (mpzToHexBytes aT ++
        10 :: (natToBytes 10 rows.length ++
          10 :: (rowsBytes rows ++ rest))) := by
    simp [billProofBytes]
  unfold ProviderState.receive_billing_information
  dsimp only
  rw [hlines, read_up_to_newline_spec _ _ (intToBytes_no_newline bill)]
  dsimp only
  rw [read_up_to_newline_spec _ _ (mpzToHexBytes_no_newline aT)]
  dsimp only
  rw [read_up_to_newline_spec _ _
    (natToBytes_no_newline 10 rows.length (by omega) (by omega))]
  dsimp only
  rw [parseI64_intToBytes bill hbr.1 hbr.2, parseMpzHex_mpzToHexBytes aT,
    parseUsize_natToBytes rows.length hn]
  dsimp only
  cases rows with
  | nil =>
    have hbill0 : bill = 0 := by simpa [billOf] using hbill
    simp only [List.length_nil, reduceIte]
    rw [if_pos hbill0]
    have : bt + bill = bt := by omega
    rw [show rowsBytes [] ++ rest = rest from rfl, this]
  | cons r0 rs =>
    rw [if_neg (by simp)]
    rw [readCommitments_honest p g hp skM hsk (r0 :: rs) hrows rest [] []]
    dsimp only
    simp only [List.nil_append, List.map_cons]
    obtain ⟨hr0a, hr0b, hr0c, hr0d, hr0e⟩ := hrows r0 (List.mem_cons_self r0 rs)
    have hget0 : prices.get? r0.other = some (prices.getD r0.other 0) :=
      get?_getD prices r0.other (by
        have h168 : (168 : Nat) = PRICES_LEN := rfl
        omega)
    rw [hget0]
    dsimp only
    rw [List.zip_map']
    have hpairs : (fun r : ConsumptionTableRow =>
        ((fun r : ConsumptionTableRow => commitVal p g r.cons r.a) r,
          (fun r : ConsumptionTableRow => r.other) r)) =
        (fun r : ConsumptionTableRow => (commitVal p g r.cons r.a, r.other)) := rfl
    rw [hpairs]
    rw [calcFold_spec p prices (rs.map
        (fun r => (commitVal p g r.cons r.a, r.other)))
      (commitScale p (commitVal p g r0.cons r0.a) (prices.getD r0.other 0))
      (Int.emod_emod _ _)
      (by
        intro pr hpr
        rw [List.mem_map] at hpr
        obtain ⟨r, hr, rfl⟩ := hpr
        obtain ⟨_, _, hro, _, _⟩ := hrows r (List.mem_cons_of_mem r0 hr)
        have h168 : (168 : Nat) = PRICES_LEN := rfl
        simp only
        omega)]
    dsimp only
    have hmapmap : (rs.map (fun r : ConsumptionTableRow =>
        (commitVal p g r.cons r.a, r.other))).map
          (fun pr : Int × Nat => pr.1 * prices.getD pr.2 0) =
        rs.map (fun r => commitVal p g r.cons r.a * prices.getD r.other 0) := by
      rw [List.map_map]
      rfl
    rw [hmapmap]
    have hEq : commitVal p g bill aT =
        (commitScale p (commitVal p g r0.cons r0.a) (prices.getD r0.other 0) +
          (rs.map (fun r => commitVal p g r.cons r.a * prices.getD r.other 0)).sum) % p := by
      show (g * bill + aT) % p = _
      rw [← Int.add_emod_emod, haT2, Int.add_emod_emod, hbill]
      unfold commitScale
      rw [Int.emod_add_emod]
      have hsum : commitVal p g r0.cons r0.a * prices.getD r0.other 0 +
          (rs.map (fun r => commitVal p g r.cons r.a * prices.getD r.other 0)).sum =
          (((r0 :: rs).map
            (fun r => commitVal p g r.cons r.a * prices.getD r.other 0)).sum) := by
        simp
      rw [hsum, commitSum_mod p g prices (r0 :: rs)]
    rw [if_pos hEq]
    unfold addI64
    rw [if_pos hbt]

/-! ### Claim theorems -/

/-- C2: for every valid consumption reading and every blinding factor and key
material, encoding with `meter_consume` and decoding the resulting bytes with
`customer_read_consumption` under the matching key appends exactly one ledger
row whose `cons` equals the original `units_consumed` and whose hour (`other`)
equals the original `hour_of_week`. -/
theorem C2_meter_record_roundtrip (p g : Int) (hp : 0 < p) (sk : Nat)
    (hsk : sk < 256) (a : Int) (ha : 0 ≤ a) (c : IntegerConsumption)
    (hvalid : c.is_valid = true) (hcons : c.units_consumed < 2 ^ 31)
    (msg : List Nat) (hmsg : meter_consume (p, g) sk a c = some msg)
    (table : List ConsumptionTableRow) :
    ∃ row, customer_read_consumption sk msg table = some (table ++ [row], []) ∧
      row.cons = c.units_consumed ∧ row.other = c.hour_of_week := by
  have h := meter_roundtrip p g hp sk hsk a ha c hvalid hcons [] table msg hmsg
  rw [List.append_nil] at h
  exact ⟨_, h, rfl, rfl⟩

/-- A concrete meter record: `cons = 2`, `hour = 10`, blinding factor `4`,
parameters `(7, 3)`, meter key `5`. -/
def msg0 : List Nat := (meter_consume (7, 3) 5 4 ⟨10, 2⟩).getD []

theorem C2_witness :
    ∃ row, customer_read_consumption 5 msg0 [] = some ([] ++ [row], []) ∧
      row.cons = (⟨10, 2⟩ : IntegerConsumption).units_consumed ∧
      row.other = (⟨10, 2⟩ : IntegerConsumption).hour_of_week :=
  C2_meter_record_roundtrip 7 3 (by decide) 5 (by decide) 4 (by decide)
    ⟨10, 2⟩ (by decide) (by decide) msg0 (by decide) []

/-- A record whose signature verifies and whose fields parse, carrying
`hour_of_week = 200`: line `"0 0"`, then the meter-signed `"0 200"`. -/
def badHourMsg : List Nat :=
  (intToBytes 0 ++ 32 :: mpzToHexBytes 0) ++ 10 ::
    (stringify_bytes (sign 5 (mpzToHexBytes 0 ++ 32 :: natToBytes 10 200)) ++ [10])

/-- C5, counterexample: `customer_read_consumption` accepts a validly signed,
parseable record with `hour_of_week = 200` and appends a ledger row whose
hour field is not below 168 — the decoder performs no range check. -/
theorem C5_counterexample :
    (customer_read_consumption 5 badHourMsg []).map
        (fun x => x.1.map (fun r => r.other)) = some [200] ∧
      ¬(200 < 168) := by decide

/-- C5, amended: rows decoded from records that the meter itself produced
(`meter_consume` on a valid reading) always satisfy `other < 168`; the
invariant holds for honestly produced records, not for every accepted byte
stream. -/
theorem C5_amended_honest_hour_bound (p g : Int) (hp : 0 < p) (sk : Nat)
    (hsk : sk < 256) (a : Int) (ha : 0 ≤ a) (c : IntegerConsumption)
    (hvalid : c.is_valid = true) (hcons : c.units_consumed < 2 ^ 31)
    (rest : List Nat) (table : List ConsumptionTableRow)
    (msg : List Nat) (hmsg : meter_consume (p, g) sk a c = some msg) :
    ∃ row, customer_read_consumption sk (msg ++ rest) table =
        some (table ++ [row], rest) ∧ row.other < 168 := by
  refine ⟨_, meter_roundtrip p g hp sk hsk a ha c hvalid hcons rest table msg hmsg, ?_⟩
  show c.hour_of_week < 168
  have := (is_valid_iff c).mp hvalid
  omega

theorem C5_amended_witness :
    ∃ row, customer_read_consumption 5 (msg0 ++ [77]) [] =
        some ([] ++ [row], [77]) ∧ row.other < 168 :=
  C5_amended_honest_hour_bound 7 3 (by decide) 5 (by decide) 4 (by decide)
    ⟨10, 2⟩ (by decide) (by decide) [77] [] msg0 (by decide)

/-- A second concrete meter record, and a customer holding two buffered
records. -/
def msg1 : List Nat := (meter_consume (7, 3) 5 6 ⟨11, 3⟩).getD []

def custTwoRecords : CustomerState :=
  ⟨msg0 ++ msg1, ⟨[], []⟩, [], [], List.replicate 168 1, 9, 5, (7, 3)⟩

/-- C7, counterexample: with `n = 2` complete records buffered on the meter
channel, a single invocation of `read_meter_messages` appends exactly one row
— not all `n` — leaving the second record unread. -/
theorem C7_counterexample :
    (custTwoRecords.read_meter_messages).map
        (fun s => (s.consumption_table.length, s.meter_channel = msg1)) =
      some (1, True) ∧ (1 : Nat) ≠ 2 := by
  constructor
  · have h := meter_roundtrip 7 3 (by decide) 5 (by decide) 4 (by decide)
      ⟨10, 2⟩ (by decide) (by decide) msg1 [] msg0 (by decide)
    unfold CustomerState.read_meter_messages custTwoRecords
    dsimp only
    rw [h]
    simp
  · decide

/-- C7, amended: `read_meter_messages` parses exactly one buffered record per
invocation; with two records buffered, the first call appends the first row
and leaves the second record, and a second call drains it. -/
theorem C7_amended_one_record_per_call (p g : Int) (hp : 0 < p) (sk : Nat)
    (hsk : sk < 256) (a1 a2 : Int) (ha1 : 0 ≤ a1) (ha2 : 0 ≤ a2)
    (c1 c2 : IntegerConsumption)
    (hv1 : c1.is_valid = true) (hv2 : c2.is_valid = true)
    (hc1 : c1.units_consumed < 2 ^ 31) (hc2 : c2.units_consumed < 2 ^ 31)
    (m1 m2 : List Nat)
    (hm1 : meter_consume (p, g) sk a1 c1 = some m1)
    (hm2 : meter_consume (p, g) sk a2 c2 = some m2)
    (ch : Channel) (pin : List Nat) (table : List ConsumptionTableRow)
    (prices : List Int) (pkey : Nat) :
    ∃ r1 r2 s1 s2,
      CustomerState.read_meter_messages
          ⟨m1 ++ m2, ch, pin, table, prices, pkey, sk, (p, g)⟩ = some s1 ∧
      s1.consumption_table = table ++ [r1] ∧ s1.meter_channel = m2 ∧
      CustomerState.read_meter_messages s1 = some s2 ∧
      s2.consumption_table = (table ++ [r1]) ++ [r2] ∧
      s2.meter_channel = [] := by
  have h1 := meter_roundtrip p g hp sk hsk a1 ha1 c1 hv1 hc1 m2 table m1 hm1
  have h2 := meter_roundtrip p g hp sk hsk a2 ha2 c2 hv2 hc2 []
    (table ++ [⟨honestSignedLine p g sk c1.units_consumed c1.hour_of_week a1,
      c1.units_consumed, c1.hour_of_week, a1⟩]) m2 hm2
  rw [List.append_nil] at h2
  refine ⟨⟨honestSignedLine p g sk c1.units_consumed c1.hour_of_week a1,
      c1.units_consumed, c1.hour_of_week, a1⟩,
    ⟨honestSignedLine p g sk c2.units_consumed c2.hour_of_week a2,
      c2.units_consumed, c2.hour_of_week, a2⟩,
    ⟨m2, ch, pin, table ++ [⟨honestSignedLine p g sk c1.units_consumed
        c1.hour_of_week a1, c1.units_consumed, c1.hour_of_week, a1⟩],
      prices, pkey, sk, (p, g)⟩,
    ⟨[], ch, pin, (table ++ [⟨honestSignedLine p g sk c1.units_consumed
        c1.hour_of_week a1, c1.units_consumed, c1.hour_of_week, a1⟩]) ++
        [⟨honestSignedLine p g sk c2.units_consumed c2.hour_of_week a2,
          c2.units_consumed, c2.hour_of_week, a2⟩],
      prices, pkey, sk, (p, g)⟩, ?_, ?_, ?_, ?_, ?_, ?_⟩
  · unfold CustomerState.read_meter_messages
    dsimp only
    rw [h1]
  · rfl
  · rfl
  · unfold CustomerState.read_meter_messages
    dsimp only
    rw [h2]
  · rfl
  · rfl

theorem C7_amended_witness :
    ∃ r1 r2 s1 s2,
      CustomerState.read_meter_messages
          ⟨msg0 ++ msg1, ⟨[], []⟩, [], [], List.replicate 168 1, 9, 5, (7, 3)⟩ =
        some s1 ∧
      s1.consumption_table = [] ++ [r1] ∧ s1.meter_channel = msg1 ∧
      CustomerState.read_meter_messages s1 = some s2 ∧
      s2.consumption_table = ([] ++ [r1]) ++ [r2] ∧
      s2.meter_channel = [] :=
  C7_amended_one_record_per_call 7 3 (by decide) 5 (by decide) 4 6 (by decide)
    (by decide) ⟨10, 2⟩ ⟨11, 3⟩ (by decide) (by decide) (by decide) (by decide)
    msg0 msg1 (by decide) (by decide) ⟨[], []⟩ [] [] (List.replicate 168 1) 9

/-- C1: for every ledger of honest rows and identical price table on both
sides, if the customer's `send_billing_information` completes, the provider's
`receive_billing_information` on the transmitted proof accepts: its
recomputed commitment equals the homomorphic recombination (the internal
`assert!(expected == calculated)` passes), and the bill
`billOf prices rows = Σ cons_i * price[hour_i]` is added to the running
total; the customer's ledger is left empty. -/
theorem C1_honest_bill_accepted (p g : Int) (hp : 0 < p) (skM skP : Nat)
    (hsk : skM < 256) (prices : List Int) (hplen : prices.length = PRICES_LEN)
    (rows : List ConsumptionTableRow) (hrows : ∀ r ∈ rows, HonestRow p g skM r)
    (hn : rows.length < 2 ^ 64) (mc pin : List Nat) (pkey : Nat)
    (cust' : CustomerState)
    (hsend : CustomerState.send_billing_information
        ⟨mc, Channel.mk [] [], pin, rows, prices, pkey, skM, (p, g)⟩ =
      .ok cust')
    (bt : Int) (chout rest : List Nat)
    (hbt : -(2 ^ 63) ≤ bt + billOf prices rows ∧
      bt + billOf prices rows < 2 ^ 63) :
    ProviderState.receive_billing_information
        ⟨cust'.provider_channel.sent ++ rest, chout, prices,
          ⟨skP, skM⟩, (p, g), bt⟩ =
      some ⟨rest, chout, prices, ⟨skP, skM⟩, (p, g),
        bt + billOf prices rows⟩ ∧
      cust'.consumption_table = [] := by
  unfold CustomerState.send_billing_information at hsend
  dsimp only at hsend
  cases hfold : billAFold p prices rows (0, 0) with
  | none =>
    rw [hfold] at hsend
    exact absurd hsend (by simp)
  | some ba =>
    cases ba with
    | mk bill aT =>
      have hs := send_billing_information_nosched
        ⟨mc, Channel.mk [] [], pin, rows, prices, pkey, skM, (p, g)⟩ rfl
        bill aT hfold
      unfold CustomerState.send_billing_information at hs
      dsimp only at hs
      rw [hs] at hsend
      injection hsend with hsend
      subst hsend
      dsimp only
      have hbill : bill = billOf prices rows := by
        simpa using (billAFold_spec p prices rows (0, 0) bill aT hfold).1
      rw [← hbill] at hbt
      constructor
      · rw [List.nil_append, ← hbill]
        exact receive_billing_information_honest p g hp skM hsk skP prices
          hplen rows hrows hn bill aT hfold chout bt rest hbt
      · rfl

/-- The customer of the concrete end-to-end instance: one honest row
(`cons = 2`, `hour = 10`, `a = 4`) under parameters `(7, 3)`, meter key `5`,
uniform price `1`. -/
def row0 : ConsumptionTableRow := ⟨honestSignedLine 7 3 5 2 10 4, 2, 10, 4⟩

def prices0 : List Int := List.replicate 168 1

def cst0 : CustomerState := ⟨[], ⟨[], []⟩, [], [row0], prices0, 9, 5, (7, 3)⟩

/-- The customer state after a successful send. -/
def cst1 : CustomerState :=
  match cst0.send_billing_information with
  | .ok s => s
  | .error s => s

set_option maxRecDepth 8000 in
theorem C1_witness :
    ProviderState.receive_billing_information
        ⟨cst1.provider_channel.sent ++ [], [], prices0, ⟨9, 5⟩, (7, 3), 0⟩ =
      some ⟨[], [], prices0, ⟨9, 5⟩, (7, 3), 0 + billOf prices0 [row0]⟩ ∧
      cst1.consumption_table = [] :=
  C1_honest_bill_accepted 7 3 (by decide) 5 9 (by decide) prices0 (by decide)
    [row0] (by decide) (by decide) [] [] 9 cst1 rfl 0 [] []
    (by decide)

/-- The wire form of a zero-row bill proof declaring `bill` and blinding
aggregate `a`. -/
def zeroRowProof (bill aT : Int) (rest : List Nat) : List Nat :=
  intToBytes bill ++ 10 :: (mpzToHexBytes aT ++
    10 :: (natToBytes 10 0 ++ 10 :: rest))

/-- C4: a bill proof with row count 0 is accepted iff the declared bill is
exactly 0; on acceptance the provider's running total is unchanged, on a
nonzero declared bill the provider fails fatally. -/
theorem C4_zero_row_proof (bill aT : Int)
    (hbr : -(2 ^ 63) ≤ bill ∧ bill < 2 ^ 63)
    (rest chout : List Nat) (prices : List Int) (keys : Keys)
    (pg : Int × Int) (bt : Int) :
    (bill = 0 → ProviderState.receive_billing_information
        ⟨zeroRowProof bill aT rest, chout, prices, keys, pg, bt⟩ =
      some ⟨rest, chout, prices, keys, pg, bt⟩) ∧
    (bill ≠ 0 → ProviderState.receive_billing_information
        ⟨zeroRowProof bill aT rest, chout, prices, keys, pg, bt⟩ = none) := by
  unfold ProviderState.receive_billing_information zeroRowProof
  dsimp only
  rw [read_up_to_newline_spec _ _ (intToBytes_no_newline bill)]
  dsimp only
  rw [read_up_to_newline_spec _ _ (mpzToHexBytes_no_newline aT)]
  dsimp only
  rw [read_up_to_newline_spec _ _
    (natToBytes_no_newline 10 0 (by omega) (by omega))]
  dsimp only
  rw [parseI64_intToBytes bill hbr.1 hbr.2, parseMpzHex_mpzToHexBytes aT,
    parseUsize_natToBytes 0 (by omega)]
  dsimp only
  rw [if_pos rfl]
  constructor
  · intro h0
    rw [if_pos h0]
  · intro h0
    rw [if_neg h0]

theorem C4_witness :
    ProviderState.receive_billing_information
        ⟨zeroRowProof 0 4 [77], [], prices0, ⟨9, 5⟩, (7, 3), 21⟩ =
      some ⟨[77], [], prices0, ⟨9, 5⟩, (7, 3), 21⟩ :=
  (C4_zero_row_proof 0 4 (by decide) [77] [] prices0 ⟨9, 5⟩ (7, 3) 21).1 rfl

/-- C8: when `send_billing_information` succeeds, the consumption ledger is
empty afterwards and every other field of the customer state is unchanged;
when it fails (a channel write error or short write, or the bill-fold panic),
the ledger is exactly as before — it is cleared only after the writes
succeed, never before. -/
theorem C8_send_frame (s : CustomerState) :
    (∀ s', s.send_billing_information = .ok s' →
      s'.consumption_table = [] ∧ s'.prices = s.prices ∧
      s'.provider_key = s.provider_key ∧ s'.meter_key = s.meter_key ∧
      s'.params = s.params ∧ s'.meter_channel = s.meter_channel ∧
      s'.provider_in = s.provider_in) ∧
    (∀ s'', s.send_billing_information = .error s'' →
      s''.consumption_table = s.consumption_table) := by
  unfold CustomerState.send_billing_information
  cases hfold : billAFold s.params.1 s.prices s.consumption_table (0, 0) with
  | none =>
    constructor
    · intro s' h
      exact absurd h (by simp)
    · intro s'' h
      injection h with h
      rw [← h]
  | some ba =>
    cases ba with
    | mk bill aT =>
      dsimp only
      cases hw : s.provider_channel.write (intToBytes bill ++
          10 :: mpzToHexBytes aT ++
          10 :: natToBytes 10 s.consumption_table.length ++ [10]) with
      | mk res ch2 =>
        cases res with
        | none =>
          constructor
          · intro s' h
            exact absurd h (by simp)
          · intro s'' h
            injection h with h
            rw [← h]
        | some n =>
          dsimp only
          by_cases hn : n = (intToBytes bill ++ 10 :: mpzToHexBytes aT ++
              10 :: natToBytes 10 s.consumption_table.length ++ [10]).length
          · rw [if_pos hn]
            cases hwr : writeRows ch2 s.consumption_table with
            | error ch3 =>
              constructor
              · intro s' h
                exact absurd h (by simp)
              · intro s'' h
                injection h with h
                rw [← h]
            | ok ch3 =>
              constructor
              · intro s' h
                injection h with h
                rw [← h]
                exact ⟨rfl, rfl, rfl, rfl, rfl, rfl, rfl⟩
              · intro s'' h
                exact absurd h (by simp)
          · rw [if_neg hn]
            constructor
            · intro s' h
              exact absurd h (by simp)
            · intro s'' h
              injection h with h
              rw [← h]

set_option maxRecDepth 8000 in
theorem C8_witness :
    cst1.consumption_table = [] ∧ cst1.prices = cst0.prices ∧
      cst1.provider_key = cst0.provider_key ∧
      cst1.meter_key = cst0.meter_key ∧ cst1.params = cst0.params ∧
      cst1.meter_channel = cst0.meter_channel ∧
      cst1.provider_in = cst0.provider_in :=
  (C8_send_frame cst0).1 cst1 rfl

/-- C9: `pay_bill` returns the running bill total and resets it to 0; a
second call with no intervening accepted bill returns 0, and on a state whose
accepted total is 15 it returns 15, then 0. -/
theorem C9_pay_bill (s : ProviderState) :
    (s.pay_bill).1 = s.bill_total ∧
    (s.pay_bill).2 = { s with bill_total := 0 } ∧
    ((s.pay_bill).2.pay_bill).1 = 0 ∧
    (ProviderState.pay_bill { s with bill_total := 15 }).1 = 15 ∧
    (ProviderState.pay_bill
      (ProviderState.pay_bill { s with bill_total := 15 }).2).1 = 0 :=
  ⟨rfl, rfl, rfl, rfl, rfl⟩

/-- A price table whose hour-0 price is negative. -/
def negPrices : List Int := (-1) :: List.replicate 167 0

set_option maxRecDepth 8000 in
/-- C3, counterexample: a validly signed, fresh price update containing the
negative price `-1` is accepted by `check_for_new_prices`, which returns the
table with the negative value intact — accepting it is not fatal and the
provider did push it onto the wire via `change_prices`. -/
theorem C3_counterexample :
    check_for_new_prices 100 3 (change_prices 100 3 negPrices) none =
        .ok (some negPrices) ∧
      negPrices.getD 0 0 < 0 := by
  constructor
  · have h := check_for_new_prices_single 100 100 3 negPrices (by decide)
      (by decide) (by decide) none
    rw [if_neg (by omega), if_neg (by omega)] at h
    exact h
  · decide

/-- C3, amended: neither `change_prices` nor `check_for_new_prices`
validates the sign of the price values.  A provider pushes any table —
including one containing a negative price — unconditionally storing it, and
the receiver accepts the signed, fresh update exactly as sent. -/
theorem C3_amended_no_sign_validation (now t sk : Nat) (prices : List Int)
    (hlen : prices.length = PRICES_LEN)
    (hrange : ∀ v ∈ prices, -(2 ^ 31) ≤ v ∧ v < 2 ^ 31)
    (hneg : ∃ v ∈ prices, v < 0)
    (ht : t < 256 ^ SIZE_SYSTEMTIME)
    (hfresh : t ≤ now ∧ now - t ≤ PRICE_WINDOW_SECS) :
    check_for_new_prices now sk (change_prices t sk prices) none =
        .ok (some prices) ∧
      ∀ s : ProviderState, (ProviderState.change_prices now s prices).prices =
        prices := by
  constructor
  · have h := check_for_new_prices_single now t sk prices hlen hrange ht none
    rw [if_neg (by omega), if_neg (by omega)] at h
    exact h
  · intro s
    rfl

set_option maxRecDepth 8000 in
theorem C3_amended_witness :
    check_for_new_prices 100 3 (change_prices 100 3 negPrices) none =
        .ok (some negPrices) ∧
      ∀ s : ProviderState,
        (ProviderState.change_prices 100 s negPrices).prices = negPrices :=
  C3_amended_no_sign_validation 100 100 3 negPrices (by decide) (by decide)
    ⟨-1, by decide⟩ (by decide) (by decide)

/-- C6: a validly signed price update whose timestamp is older than the
two-month window relative to the receive time is rejected fatally by the
customer's `read_provider_messages`; one within the window is accepted, and
the reconstructed table replaces the customer's held price table. -/
theorem C6_price_freshness (now t sk : Nat) (prices : List Int)
    (hlen : prices.length = PRICES_LEN)
    (hrange : ∀ v ∈ prices, -(2 ^ 31) ≤ v ∧ v < 2 ^ 31)
    (ht : t < 256 ^ SIZE_SYSTEMTIME) (s : CustomerState)
    (hkey : s.provider_key = sk)
    (hin : s.provider_in = change_prices t sk prices) :
    (t ≤ now → now - t ≤ PRICE_WINDOW_SECS →
      CustomerState.read_provider_messages now s =
        .ok { s with provider_in := [], prices := prices }) ∧
    (t ≤ now → PRICE_WINDOW_SECS < now - t →
      CustomerState.read_provider_messages now s = .error ()) := by
  have h := check_for_new_prices_single now t sk prices hlen hrange ht none
  constructor
  · intro h1 h2
    rw [if_neg (by omega), if_neg (by omega)] at h
    unfold CustomerState.read_provider_messages
    rw [hkey, hin, h]
  · intro h1 h2
    rw [if_neg (by omega), if_pos (by omega)] at h
    unfold CustomerState.read_provider_messages
    rw [hkey, hin, h]

/-- The customer holding one fresh price update (uniform price `2`,
timestamp `100`) from the provider signing with key `9`. -/
def custWithUpdate : CustomerState :=
  ⟨[], ⟨[], []⟩, change_prices 100 9 (List.replicate 168 2), [],
    List.replicate 168 1, 9, 5, (7, 3)⟩

set_option maxRecDepth 8000 in
theorem C6_witness :
    CustomerState.read_provider_messages 150 custWithUpdate =
      .ok { custWithUpdate with provider_in := ([] : List Nat), prices := List.replicate 168 2 } :=
  (C6_price_freshness 150 100 9 (List.replicate 168 2) (by decide) (by decide)
    (by decide) custWithUpdate rfl rfl).1 (by omega) (by decide)

/-- C10: a validly signed price update whose timestamp is later than the
receive time is fatal: `SystemTime::duration_since` returns `Err` for a
future timestamp and the `unwrap` panics, so `check_for_new_prices` fails
instead of accepting the (otherwise fresh) table. -/
theorem C10_future_timestamp_fatal (now t sk : Nat) (prices : List Int)
    (hlen : prices.length = PRICES_LEN)
    (hrange : ∀ v ∈ prices, -(2 ^ 31) ≤ v ∧ v < 2 ^ 31)
    (ht : t < 256 ^ SIZE_SYSTEMTIME) (hfut : now < t) :
    check_for_new_prices now sk (change_prices t sk prices) none =
      .error () := by
  have h := check_for_new_prices_single now t sk prices hlen hrange ht none
  rw [if_pos hfut] at h
  exact h

set_option maxRecDepth 8000 in
theorem C10_witness :
    check_for_new_prices 99 3 (change_prices 100 3 negPrices) none =
      .error () :=
  C10_future_timestamp_fatal 99 100 3 negPrices (by decide) (by decide)
    (by decide) (by decide)

end ProjBilling
